import Mathlib

/-!
# Verification of the fcmd directory-listing core

Shallow embedding of the directory-listing core of the fcmd library
(`fcmd.go`): the hidden-name predicate `IsHidden`, the one-level lister
`Ls`, the recursive tree explorer `Explore`, and the existence check
`IsExist`.

The file system visible to these functions is modelled as a finite tree
of entries. A directory entry carries the list of entries that the
OS "read directory" call returns for it; a directory whose read fails
(nonexistent, unreadable, permission denied) is a distinct constructor.
The result of `ioutil.ReadDir` on a path is `Option (List FsEntry)`:
`none` models a read error, `some es` models a successful read
returning the entries `es` in OS order.
-/

namespace Fcmd

/-- A directory entry as seen through `ioutil.ReadDir`:
* `file name` — an entry whose `IsDir()` flag is false (plain file,
  symlink, device, ...); only its name is ever used;
* `unreadableDir name` — an entry whose `IsDir()` flag is true but whose
  own `ReadDir` fails (the recursive `Explore` call on it gets an error);
* `dir name children` — an entry whose `IsDir()` flag is true and whose
  `ReadDir` succeeds, returning `children` in OS order. -/
inductive FsEntry : Type where
  | file (name : String)
  | unreadableDir (name : String)
  | dir (name : String) (children : List FsEntry)

/-- The `Name()` of a directory entry. -/
def entryName : FsEntry → String
  | .file n => n
  | .unreadableDir n => n
  | .dir n _ => n

/-- The `IsDir()` flag of a directory entry. -/
def entryIsDir : FsEntry → Bool
  | .file _ => false
  | .unreadableDir _ => true
  | .dir _ _ => true

/-- Checks lexically if the target is hidden (fcmd.go line 56):
`return strings.HasPrefix(target, ".")`.  Go's `strings.HasPrefix` is
modelled on the character sequences of the strings. -/
def IsHidden (target : String) : Bool :=
  ".".data.isPrefixOf target.data

/-- Model of Go's `path.Join(root, name)` for the arguments produced by
`Explore`: `name` is a cleaned non-empty path element (a readdir entry
name), so `Join` reduces to slash-concatenation, except that a `""` or
`"."` root disappears under `path.Clean`. -/
def pathJoin (root name : String) : String :=
  if root = "" then name
  else if root = "." then name
  else root ++ "/" ++ name

/-- The entry loop of `Ls` (fcmd.go lines 67-76): walk the readdir
result in order, skip hidden names, and append directory names to the
first output and other names to the second. -/
def lsLoop : List FsEntry → List String × List String
  | [] => ([], [])
  | e :: rest =>
      if IsHidden (entryName e) then lsLoop rest
      else if entryIsDir e then
        ((entryName e) :: (lsLoop rest).1, (lsLoop rest).2)
      else
        ((lsLoop rest).1, (entryName e) :: (lsLoop rest).2)

/-- `Ls` (fcmd.go lines 62-78): lists separately the names of
directories and files inside the target directory.  The argument is the
result of `ioutil.ReadDir` on the target: on error (`none`) both
outputs are empty and the error is discarded. -/
def Ls : Option (List FsEntry) → List String × List String
  | none => ([], [])
  | some directory => lsLoop directory

/-- The directory loop of `Explore` (fcmd.go lines 90-100): for each
entry of `dirList` in order, emit `subRoot := path.Join(root, dir)`,
recurse into it, and append the recursive results.  The OS lookup of
`subRoot` is resolved to the entry's own subtree; an unreadable
subdirectory's recursive call returns two empty lists (fcmd.go 63-66).
File entries belong to `fileList`, not `dirList`, so they are skipped
here. -/
def exploreDirLoop (root : String) : List FsEntry → List String × List String
  | [] => ([], [])
  | .file _ :: rest => exploreDirLoop root rest
  | .unreadableDir name :: rest =>
      if IsHidden name then exploreDirLoop root rest
      else
        (pathJoin root name :: (exploreDirLoop root rest).1,
         (exploreDirLoop root rest).2)
  | .dir name cs :: rest =>
      if IsHidden name then exploreDirLoop root rest
      else
        (pathJoin root name ::
           ((exploreDirLoop (pathJoin root name) cs).1 ++ (exploreDirLoop root rest).1),
         ((lsLoop cs).2 ++ (exploreDirLoop (pathJoin root name) cs).2) ++ (exploreDirLoop root rest).2)

/-- `Explore` (fcmd.go lines 83-102): `Ls` the root; append `fileList`
to the file output; then run the directory loop.  The argument is the
`ReadDir` view of the root directory (`none` when the root itself
cannot be listed). -/
def Explore (root : String) : Option (List FsEntry) → List String × List String
  | none => ([], [])
  | some directory =>
      ((exploreDirLoop root directory).1,
       (lsLoop directory).2 ++ (exploreDirLoop root directory).2)

/-- The contribution of one readdir entry to the two outputs of the `Ls`
loop: nothing if hidden, its name in the directory column if its
`IsDir()` flag is set, in the file column otherwise. -/
def entryLsOut (e : FsEntry) : List String × List String :=
  if IsHidden (entryName e) then ([], [])
  else if entryIsDir e then ([entryName e], []) else ([], [entryName e])

/-- The block of directory paths that one readdir entry contributes to
the directory output of `Explore`: its own joined path followed by the
directory output of the recursive call on it. -/
def entryDirsOut (root : String) : FsEntry → List String
  | .file _ => []
  | .unreadableDir n =>
      if IsHidden n then [] else pathJoin root n :: (Explore (pathJoin root n) none).1
  | .dir n cs =>
      if IsHidden n then [] else pathJoin root n :: (Explore (pathJoin root n) (some cs)).1

/-- The block of file names that one readdir entry contributes to the
file output of the directory loop of `Explore`: the file output of the
recursive call on it. -/
def entryFilesOut (root : String) : FsEntry → List String
  | .file _ => []
  | .unreadableDir n =>
      if IsHidden n then [] else (Explore (pathJoin root n) none).2
  | .dir n cs =>
      if IsHidden n then [] else (Explore (pathJoin root n) (some cs)).2

/-- Concatenation of a list of lists (the shape of `Explore`'s outputs:
one contiguous block per readdir entry, in readdir order). -/
def catLists : List (List String) → List String
  | [] => []
  | l :: ls => l ++ catLists ls

/-- Two `ReadDir` views of the same unmodified directory tree: the same
entries at every level, each level possibly returned in a different
OS order.  `swap`, closed under `cons` and `trans`, generates every
reordering; `consDir` allows the reordering to differ level by level. -/
inductive Reorder : List FsEntry → List FsEntry → Prop where
  | nil : Reorder [] []
  | consFile (n : String) {l l' : List FsEntry} :
      Reorder l l' → Reorder (.file n :: l) (.file n :: l')
  | consUnreadable (n : String) {l l' : List FsEntry} :
      Reorder l l' → Reorder (.unreadableDir n :: l) (.unreadableDir n :: l')
  | consDir (n : String) {cs cs' l l' : List FsEntry} :
      Reorder cs cs' → Reorder l l' → Reorder (.dir n cs :: l) (.dir n cs' :: l')
  | swap (e₁ e₂ : FsEntry) (l : List FsEntry) : Reorder (e₁ :: e₂ :: l) (e₂ :: e₁ :: l)
  | trans {l₁ l₂ l₃ : List FsEntry} : Reorder l₁ l₂ → Reorder l₂ l₃ → Reorder l₁ l₃

/-- `true` when no entry anywhere in the tree has a hidden name. -/
def noHidden : List FsEntry → Bool
  | [] => true
  | .file n :: rest => !IsHidden n && noHidden rest
  | .unreadableDir n :: rest => !IsHidden n && noHidden rest
  | .dir n cs :: rest => !IsHidden n && noHidden cs && noHidden rest

/-- The largest recursion depth that the directory loop of `Explore`
reaches through the entries of one directory level: each non-hidden
entry with the `IsDir()` flag triggers one recursive `Explore` call. -/
def callDepthList : List FsEntry → Nat
  | [] => 0
  | .file _ :: rest => callDepthList rest
  | .unreadableDir n :: rest =>
      if IsHidden n then callDepthList rest else max 1 (callDepthList rest)
  | .dir n cs :: rest =>
      if IsHidden n then callDepthList rest else max (1 + callDepthList cs) (callDepthList rest)

/-- The recursion depth of `Explore` on a `ReadDir` view: the call on
the root itself plus the deepest chain of recursive calls. -/
def exploreCallDepth : Option (List FsEntry) → Nat
  | none => 1
  | some es => 1 + callDepthList es

/-- The depth of one directory level of the tree, counting every
directory entry, hidden or not. -/
def treeDepthList : List FsEntry → Nat
  | [] => 0
  | .file _ :: rest => treeDepthList rest
  | .unreadableDir _ :: rest => max 1 (treeDepthList rest)
  | .dir _ cs :: rest => max (1 + treeDepthList cs) (treeDepthList rest)

/-- The depth of the directory tree under a `ReadDir` view. -/
def treeDepth : Option (List FsEntry) → Nat
  | none => 1
  | some es => 1 + treeDepthList es

/-- A straight chain of `n` nested non-hidden directories: witnesses
that the traversal has no built-in depth limit. -/
def chainTree : Nat → List FsEntry
  | 0 => []
  | n + 1 => [.dir "d" (chainTree n)]

/-- Outcome of `os.Stat` on a target, as far as `os.IsNotExist` can
observe it: the stat succeeded, or it failed with an error for which
`os.IsNotExist` reports true, or it failed with any other error. -/
inductive StatOutcome : Type where
  | found
  | notExist
  | otherError
deriving DecidableEq

/-- Go's `os.IsNotExist` applied to the error of a stat outcome
(`nil` for a successful stat). -/
def osIsNotExist : StatOutcome → Bool
  | .notExist => true
  | .found => false
  | .otherError => false

/-- `IsExist` (fcmd.go lines 40-43): `_, err := os.Stat(target);
return os.IsNotExist(err)`.  The ambient `os.Stat` behaviour is the
function argument. -/
def IsExist (stat : String → StatOutcome) (target : String) : Bool :=
  osIsNotExist (stat target)

/-- The tree of the spec's worked example: subdirectories `a/` and
`a/b/` with files `a/f1`, `a/b/f2` and a hidden file `a/.hidden`. -/
def specExampleTree : List FsEntry :=
  [.dir "a" [.file "f1", .dir "b" [.file "f2"], .file ".hidden"]]

/-- Two sibling directories each containing a file of the same base
name `f`. -/
def twinFileTree : List FsEntry :=
  [.dir "a" [.file "f"], .dir "b" [.file "f"]]

/-! ## Helper lemmas -/

theorem Explore_some (root : String) (es : List FsEntry) :
    Explore root (some es) =
      ((exploreDirLoop root es).1, (lsLoop es).2 ++ (exploreDirLoop root es).2) := rfl

theorem lsLoop_cons (e : FsEntry) (rest : List FsEntry) :
    lsLoop (e :: rest) =
      ((entryLsOut e).1 ++ (lsLoop rest).1, (entryLsOut e).2 ++ (lsLoop rest).2) := by
  cases e <;> simp only [lsLoop, entryLsOut, entryName, entryIsDir] <;> (try split) <;> simp

theorem exploreDirLoop_cons (root : String) (e : FsEntry) (rest : List FsEntry) :
    exploreDirLoop root (e :: rest) =
      (entryDirsOut root e ++ (exploreDirLoop root rest).1,
       entryFilesOut root e ++ (exploreDirLoop root rest).2) := by
  cases e <;>
    simp only [exploreDirLoop, entryDirsOut, entryFilesOut, Explore] <;>
    (try split) <;> simp

theorem lsLoop_append (l₁ l₂ : List FsEntry) :
    lsLoop (l₁ ++ l₂) =
      ((lsLoop l₁).1 ++ (lsLoop l₂).1, (lsLoop l₁).2 ++ (lsLoop l₂).2) := by
  induction l₁ with
  | nil => simp [lsLoop]
  | cons e rest ih => simp [lsLoop_cons, ih]

theorem exploreDirLoop_append (root : String) (l₁ l₂ : List FsEntry) :
    exploreDirLoop root (l₁ ++ l₂) =
      ((exploreDirLoop root l₁).1 ++ (exploreDirLoop root l₂).1,
       (exploreDirLoop root l₁).2 ++ (exploreDirLoop root l₂).2) := by
  induction l₁ with
  | nil => simp [exploreDirLoop]
  | cons e rest ih => simp [exploreDirLoop_cons, ih]

theorem lsLoop_not_hidden (es : List FsEntry) (s : String) :
    (s ∈ (lsLoop es).1 → IsHidden s = false) ∧ (s ∈ (lsLoop es).2 → IsHidden s = false) := by
  induction es with
  | nil => simp [lsLoop]
  | cons e rest ih =>
      rw [lsLoop_cons]
      obtain ⟨ih1, ih2⟩ := ih
      constructor <;> intro hs <;> rw [List.mem_append] at hs
      · rcases hs with hs | hs
        · unfold entryLsOut at hs
          split at hs
          · simp at hs
          · split at hs <;> simp at hs
            subst hs
            simp_all
        · exact ih1 hs
      · rcases hs with hs | hs
        · unfold entryLsOut at hs
          split at hs
          · simp at hs
          · split at hs <;> simp at hs
            subst hs
            simp_all
        · exact ih2 hs

theorem isHidden_append (r m : String) (hr : r ≠ "") : IsHidden (r ++ m) = IsHidden r := by
  unfold IsHidden
  rw [String.data_append, show ".".data = ['.'] from rfl]
  obtain ⟨c, cs, hc⟩ : ∃ c cs, r.data = c :: cs := by
    cases hcc : r.data with
    | nil => exact absurd (String.ext (hcc.trans rfl)) hr
    | cons c cs => exact ⟨c, cs, rfl⟩
  rw [hc]
  simp [List.isPrefixOf]

theorem pathJoin_not_hidden (root n : String)
    (hroot : IsHidden root = false ∨ root = ".") (hn : IsHidden n = false) :
    IsHidden (pathJoin root n) = false := by
  unfold pathJoin
  split
  · exact hn
  · split
    · exact hn
    · rename_i h1 h2
      have hr : IsHidden root = false := hroot.resolve_right h2
      have hslash : root ++ "/" ≠ "" := by
        intro heq
        have := congrArg String.data heq
        simp [String.data_append] at this
      rw [isHidden_append (root ++ "/") n hslash, isHidden_append root "/" h1]
      exact hr

theorem exploreDirLoop_files_not_hidden (root : String) (es : List FsEntry) :
    ∀ s ∈ (exploreDirLoop root es).2, IsHidden s = false := by
  induction root, es using exploreDirLoop.induct with
  | case1 root => simp [exploreDirLoop]
  | case2 root name rest ih =>
      intro s hs
      rw [exploreDirLoop_cons] at hs
      simp [entryFilesOut] at hs
      exact ih s hs
  | case3 root name rest h ih =>
      intro s hs
      rw [exploreDirLoop_cons] at hs
      simp [entryFilesOut, h] at hs
      exact ih s hs
  | case4 root name rest h ih =>
      intro s hs
      rw [exploreDirLoop_cons] at hs
      simp [entryFilesOut, h, Explore] at hs
      exact ih s hs
  | case5 root name cs rest h ih =>
      intro s hs
      rw [exploreDirLoop_cons] at hs
      simp [entryFilesOut, h] at hs
      exact ih s hs
  | case6 root name cs rest h ihcs ih =>
      intro s hs
      rw [exploreDirLoop_cons] at hs
      simp [entryFilesOut, h, Explore_some] at hs
      rcases hs with hs | hs | hs
      · exact (lsLoop_not_hidden cs s).2 hs
      · exact ihcs s hs
      · exact ih s hs

theorem exploreDirLoop_dirs_not_hidden (root : String) (es : List FsEntry) :
    (IsHidden root = false ∨ root = ".") →
      ∀ s ∈ (exploreDirLoop root es).1, IsHidden s = false := by
  induction root, es using exploreDirLoop.induct with
  | case1 root => simp [exploreDirLoop]
  | case2 root name rest ih =>
      intro hroot s hs
      rw [exploreDirLoop_cons] at hs
      simp [entryDirsOut] at hs
      exact ih hroot s hs
  | case3 root name rest h ih =>
      intro hroot s hs
      rw [exploreDirLoop_cons] at hs
      simp [entryDirsOut, h] at hs
      exact ih hroot s hs
  | case4 root name rest h ih =>
      intro hroot s hs
      rw [exploreDirLoop_cons] at hs
      simp [entryDirsOut, h, Explore] at hs
      rcases hs with hs | hs
      · subst hs
        exact pathJoin_not_hidden root name hroot (Bool.not_eq_true _ ▸ h)
      · exact ih hroot s hs
  | case5 root name cs rest h ih =>
      intro hroot s hs
      rw [exploreDirLoop_cons] at hs
      simp [entryDirsOut, h] at hs
      exact ih hroot s hs
  | case6 root name cs rest h ihcs ih =>
      intro hroot s hs
      have hn : IsHidden name = false := Bool.not_eq_true _ ▸ h
      have hsub : IsHidden (pathJoin root name) = false ∨ pathJoin root name = "." :=
        Or.inl (pathJoin_not_hidden root name hroot hn)
      rw [exploreDirLoop_cons] at hs
      simp [entryDirsOut, h, Explore_some] at hs
      rcases hs with hs | hs | hs
      · subst hs
        exact pathJoin_not_hidden root name hroot hn
      · exact ihcs hsub s hs
      · exact ih hroot s hs

theorem hidden_entry_contrib (root : String) (e : FsEntry)
    (h : IsHidden (entryName e) = true) :
    entryLsOut e = ([], []) ∧ entryDirsOut root e = [] ∧ entryFilesOut root e = [] := by
  cases e <;> simp_all [entryLsOut, entryDirsOut, entryFilesOut, entryName]

theorem exploreDirLoop_eq_catLists (root : String) (es : List FsEntry) :
    exploreDirLoop root es
      = (catLists (es.map (entryDirsOut root)), catLists (es.map (entryFilesOut root))) := by
  induction es with
  | nil => simp [exploreDirLoop, catLists]
  | cons e rest ih => rw [exploreDirLoop_cons, ih]; simp [catLists]

theorem perm_append_swap (a b c : List String) : (a ++ (b ++ c)).Perm (b ++ (a ++ c)) := by
  rw [← List.append_assoc, ← List.append_assoc]
  exact List.perm_append_comm.append_right c

theorem reorder_outputs_perm {es es' : List FsEntry} (h : Reorder es es') :
    ∀ root : String,
      ((lsLoop es).1).Perm ((lsLoop es').1)
      ∧ ((lsLoop es).2).Perm ((lsLoop es').2)
      ∧ ((exploreDirLoop root es).1).Perm ((exploreDirLoop root es').1)
      ∧ ((exploreDirLoop root es).2).Perm ((exploreDirLoop root es').2) := by
  induction h with
  | nil => exact fun root => ⟨.rfl, .rfl, .rfl, .rfl⟩
  | consFile n hr ih =>
      intro root
      obtain ⟨p1, p2, p3, p4⟩ := ih root
      rw [lsLoop_cons, lsLoop_cons, exploreDirLoop_cons, exploreDirLoop_cons]
      exact ⟨p1.append_left _, p2.append_left _, p3.append_left _, p4.append_left _⟩
  | consUnreadable n hr ih =>
      intro root
      obtain ⟨p1, p2, p3, p4⟩ := ih root
      rw [lsLoop_cons, lsLoop_cons, exploreDirLoop_cons, exploreDirLoop_cons]
      exact ⟨p1.append_left _, p2.append_left _, p3.append_left _, p4.append_left _⟩
  | @consDir n cs cs' l l' hcs hr ihcs ih =>
      intro root
      obtain ⟨q1, q2, q3, q4⟩ := ihcs (pathJoin root n)
      obtain ⟨p1, p2, p3, p4⟩ := ih root
      rw [lsLoop_cons, lsLoop_cons, exploreDirLoop_cons, exploreDirLoop_cons]
      refine ⟨?_, ?_, ?_, ?_⟩
      · have e1 : (entryLsOut (FsEntry.dir n cs)).1 = (entryLsOut (FsEntry.dir n cs')).1 := by
          simp [entryLsOut, entryName, entryIsDir]
        rw [e1]
        exact p1.append_left _
      · have e2 : (entryLsOut (FsEntry.dir n cs)).2 = (entryLsOut (FsEntry.dir n cs')).2 := by
          simp [entryLsOut, entryName, entryIsDir]
        rw [e2]
        exact p2.append_left _
      · cases hn : IsHidden n with
        | true => simpa [entryDirsOut, hn] using p3
        | false =>
            simp only [entryDirsOut, hn, Bool.false_eq_true, if_false, Explore_some,
              List.cons_append, List.append_assoc]
            exact (q3.append p3).cons _
      · cases hn : IsHidden n with
        | true => simpa [entryFilesOut, hn] using p4
        | false =>
            simp only [entryFilesOut, hn, Bool.false_eq_true, if_false, Explore_some,
              List.append_assoc]
            exact q2.append (q4.append p4)
  | swap e₁ e₂ l =>
      intro root
      rw [lsLoop_cons, lsLoop_cons, lsLoop_cons, lsLoop_cons,
          exploreDirLoop_cons, exploreDirLoop_cons, exploreDirLoop_cons, exploreDirLoop_cons]
      exact ⟨perm_append_swap _ _ _, perm_append_swap _ _ _,
             perm_append_swap _ _ _, perm_append_swap _ _ _⟩
  | trans h₁ h₂ ih₁ ih₂ =>
      intro root
      obtain ⟨p1, p2, p3, p4⟩ := ih₁ root
      obtain ⟨q1, q2, q3, q4⟩ := ih₂ root
      exact ⟨p1.trans q1, p2.trans q2, p3.trans q3, p4.trans q4⟩

theorem callDepthList_le_treeDepthList : ∀ es : List FsEntry,
    callDepthList es ≤ treeDepthList es := by
  intro es
  induction es using callDepthList.induct with
  | case1 => simp [callDepthList, treeDepthList]
  | case2 n rest ih => simpa [callDepthList, treeDepthList] using ih
  | case3 n rest h ih =>
      simp [callDepthList, treeDepthList, h]
      omega
  | case4 n rest h ih =>
      simp [callDepthList, treeDepthList, h]
      omega
  | case5 n cs rest h ih =>
      simp [callDepthList, treeDepthList, h]
      omega
  | case6 n cs rest h ihcs ih =>
      simp [callDepthList, treeDepthList, h]
      omega

theorem callDepthList_cons_ge (e : FsEntry) (rest : List FsEntry) :
    callDepthList rest ≤ callDepthList (e :: rest) := by
  cases e <;> simp only [callDepthList] <;> (try split) <;> omega

theorem mem_dir_callDepth_lt :
    ∀ (es : List FsEntry) (n : String) (cs : List FsEntry),
      FsEntry.dir n cs ∈ es → IsHidden n = false → callDepthList cs < callDepthList es := by
  intro es n cs
  induction es with
  | nil => intro h _; simp at h
  | cons e rest ih =>
      intro hmem hn
      rcases List.mem_cons.mp hmem with heq | hmem'
      · subst heq
        simp [callDepthList, hn]
      · exact lt_of_lt_of_le (ih hmem' hn) (callDepthList_cons_ge e rest)

theorem noHidden_callDepth_eq : ∀ es : List FsEntry,
    noHidden es = true → callDepthList es = treeDepthList es := by
  intro es
  induction es using noHidden.induct with
  | case1 => intro _; simp [callDepthList, treeDepthList]
  | case2 n rest ih =>
      intro h
      simp [noHidden] at h
      simpa [callDepthList, treeDepthList] using ih h.2
  | case3 n rest ih =>
      intro h
      simp [noHidden] at h
      simp [callDepthList, treeDepthList, h.1, ih h.2]
  | case4 n cs rest ihcs ih =>
      intro h
      simp [noHidden] at h
      simp [callDepthList, treeDepthList, h.1.1, ihcs h.1.2, ih h.2]

theorem chainTree_depth : ∀ n : Nat,
    callDepthList (chainTree n) = n ∧ treeDepthList (chainTree n) = n := by
  intro n
  induction n with
  | zero => simp [chainTree, callDepthList, treeDepthList]
  | succ n ih =>
      have hd : IsHidden "d" = false := by decide
      simp [chainTree, callDepthList, treeDepthList, hd, ih.1, ih.2]
      omega

/-! ## Claim theorems -/

/-- C1 (code bug): on the spec's worked example the directory output is
`[a, a/b]` as documented, but the file output is the bare base names
`[f1, f2]`: `Explore` appends file names from `Ls` without joining them
with the root (fcmd.go lines 86-88 and 94-96), so the joined relative
paths `a/f1` and `a/b/f2` never appear, contradicting the function's
own contract that returned paths are relative to the given root. -/
theorem explore_files_not_joined :
    Explore "" (some specExampleTree) = (["a", "a/b"], ["f1", "f2"])
    ∧ ((Explore "" (some specExampleTree)).2).contains "a/f1" = false
    ∧ ((Explore "" (some specExampleTree)).2).contains "a/b/f2" = false := by
  have h : Explore "" (some specExampleTree) = (["a", "a/b"], ["f1", "f2"]) := by
    simp [Explore, exploreDirLoop, lsLoop, IsHidden, pathJoin, specExampleTree,
      entryName, entryIsDir]
  refine ⟨h, ?_, ?_⟩ <;> rw [h] <;> decide

/-- C3: when the directory read fails (`ReadDir` returns an error,
modelled by `none`), both `Ls` and `Explore` return two empty sequences
and surface no error. -/
theorem ls_explore_swallow_read_error :
    ∀ root : String,
      Ls none = (([] : List String), ([] : List String))
      ∧ Explore root none = (([] : List String), ([] : List String)) :=
  fun _ => ⟨rfl, rfl⟩

/-- C5 (code bug): a file path can appear twice in the file output of
`Explore`: two sibling directories `a` and `b` each containing a file
named `f` produce the file output `[f, f]`, because file names are
emitted without their directory prefix; the directory output `[a, b]`
is duplicate-free here, but the file output lists the same string
twice, contradicting the at-most-once invariant. -/
theorem explore_duplicate_file_name :
    Explore "" (some twinFileTree) = (["a", "b"], ["f", "f"])
    ∧ ((Explore "" (some twinFileTree)).2).count "f" = 2 := by
  have h : Explore "" (some twinFileTree) = (["a", "b"], ["f", "f"]) := by
    simp [Explore, exploreDirLoop, lsLoop, IsHidden, pathJoin, twinFileTree,
      entryName, entryIsDir]
  exact ⟨h, by rw [h]; decide⟩

/-- C8: `IsHidden` is a pure total function, and it returns `true`
exactly when the name's first character is `.` (an empty name is not
hidden). -/
theorem isHidden_iff_first_char_dot (s : String) :
    IsHidden s = true ↔ s.data.head? = some '.' := by
  unfold IsHidden
  rw [show ".".data = ['.'] from rfl]
  cases h : s.data with
  | nil => simp [List.isPrefixOf]
  | cons c cs => simp [List.isPrefixOf]; exact eq_comm

/-- C10: `IsExist` returns `true` exactly when `os.Stat` on the target
fails with a not-exist error; in particular it returns `false` for
every target that the stat finds, the inverse of what its name
suggests. -/
theorem isExist_true_iff_stat_not_exist (stat : String → StatOutcome) (target : String) :
    (IsExist stat target = true ↔ stat target = StatOutcome.notExist)
    ∧ (stat target = StatOutcome.found → IsExist stat target = false) := by
  constructor
  · unfold IsExist
    cases h : stat target <;> simp [osIsNotExist]
  · intro h
    simp [IsExist, h, osIsNotExist]

/-- Witness for C10 at a stat function that finds every target. -/
theorem isExist_true_iff_stat_not_exist_witness :
    ((fun _ : String => StatOutcome.found) "x" = StatOutcome.found)
    ∧ IsExist (fun _ : String => StatOutcome.found) "x" = false :=
  ⟨rfl, (isExist_true_iff_stat_not_exist (fun _ => StatOutcome.found) "x").2 rfl⟩

/-- C2: no hidden name appears in either output of `Ls`; no hidden name
appears in the file output of `Explore` for any root, nor in the
directory output for a non-hidden (or `"."`) root; and a hidden entry
is invisible to both `Ls` and `Explore`: deleting it from its level,
together with its entire subtree, changes neither function's output, so
a hidden directory's contents are never visited and the hidden
directory itself is absent from the directory list. -/
theorem hidden_never_listed_never_visited :
    (∀ (es : List FsEntry) (s : String), s ∈ (Ls (some es)).1 → IsHidden s = false)
    ∧ (∀ (es : List FsEntry) (s : String), s ∈ (Ls (some es)).2 → IsHidden s = false)
    ∧ (∀ (root : String) (es : List FsEntry) (s : String),
        s ∈ (Explore root (some es)).2 → IsHidden s = false)
    ∧ (∀ (root : String) (es : List FsEntry) (s : String),
        IsHidden root = false ∨ root = "." →
        s ∈ (Explore root (some es)).1 → IsHidden s = false)
    ∧ (∀ (root : String) (es₁ es₂ : List FsEntry) (e : FsEntry),
        IsHidden (entryName e) = true →
        Ls (some (es₁ ++ e :: es₂)) = Ls (some (es₁ ++ es₂))
        ∧ Explore root (some (es₁ ++ e :: es₂)) = Explore root (some (es₁ ++ es₂))) := by
  refine ⟨?_, ?_, ?_, ?_, ?_⟩
  · exact fun es s hs => (lsLoop_not_hidden es s).1 hs
  · exact fun es s hs => (lsLoop_not_hidden es s).2 hs
  · intro root es s hs
    rw [Explore_some] at hs
    rcases List.mem_append.mp hs with hs | hs
    · exact (lsLoop_not_hidden es s).2 hs
    · exact exploreDirLoop_files_not_hidden root es s hs
  · intro root es s hroot hs
    rw [Explore_some] at hs
    exact exploreDirLoop_dirs_not_hidden root es hroot s hs
  · intro root es₁ es₂ e he
    obtain ⟨h1, h2, h3⟩ := hidden_entry_contrib root e he
    constructor
    · show lsLoop (es₁ ++ e :: es₂) = lsLoop (es₁ ++ es₂)
      rw [lsLoop_append, lsLoop_append, lsLoop_cons, h1]
      simp
    · rw [Explore_some, Explore_some, lsLoop_append, lsLoop_append, lsLoop_cons, h1,
        exploreDirLoop_append, exploreDirLoop_append, exploreDirLoop_cons, h2, h3]
      simp

/-- Witness for C2: a hidden directory `.git` with a file inside it is
invisible to `Explore`. -/
theorem hidden_never_listed_never_visited_witness :
    IsHidden ".git" = true
    ∧ Explore "" (some [FsEntry.dir ".git" [FsEntry.file "inside"], FsEntry.file "f"])
        = Explore "" (some [FsEntry.file "f"]) :=
  ⟨by decide,
   (hidden_never_listed_never_visited.2.2.2.2 "" [] [FsEntry.file "f"]
      (FsEntry.dir ".git" [FsEntry.file "inside"]) (by decide)).2⟩

/-- C4: on a readable directory none of whose entries is hidden, `Ls`
returns exactly the names of the entries whose `IsDir()` flag is set
(in readdir order) as its first output and exactly the names of the
other entries as its second, and the two output lengths sum to the
total number of entries. -/
theorem ls_lists_every_child (es : List FsEntry)
    (h : ∀ e ∈ es, IsHidden (entryName e) = false) :
    (Ls (some es)).1 = (es.filter (fun e => entryIsDir e)).map entryName
    ∧ (Ls (some es)).2 = (es.filter (fun e => !entryIsDir e)).map entryName
    ∧ (Ls (some es)).1.length + (Ls (some es)).2.length = es.length := by
  show (lsLoop es).1 = _ ∧ (lsLoop es).2 = _ ∧ (lsLoop es).1.length + (lsLoop es).2.length = _
  induction es with
  | nil => simp [lsLoop]
  | cons e rest ih =>
      have he : IsHidden (entryName e) = false := h e (by simp)
      obtain ⟨h1, h2, h3⟩ := ih (fun e' he' => h e' (List.mem_cons_of_mem _ he'))
      rw [lsLoop_cons]
      refine ⟨?_, ?_, ?_⟩
      · cases hd : entryIsDir e <;> simp [entryLsOut, he, hd, h1, List.filter_cons]
      · cases hd : entryIsDir e <;> simp [entryLsOut, he, hd, h2, List.filter_cons]
      · cases hd : entryIsDir e <;> simp [entryLsOut, he, hd] <;> omega

/-- Witness for C4 on a directory holding one subdirectory and one
file, none hidden. -/
theorem ls_lists_every_child_witness :
    (∀ e ∈ [FsEntry.dir "a" [], FsEntry.file "f"], IsHidden (entryName e) = false)
    ∧ ((Ls (some [FsEntry.dir "a" [], FsEntry.file "f"])).1
          = ([FsEntry.dir "a" [], FsEntry.file "f"].filter (fun e => entryIsDir e)).map entryName
        ∧ (Ls (some [FsEntry.dir "a" [], FsEntry.file "f"])).2
          = ([FsEntry.dir "a" [], FsEntry.file "f"].filter (fun e => !entryIsDir e)).map entryName
        ∧ (Ls (some [FsEntry.dir "a" [], FsEntry.file "f"])).1.length
            + (Ls (some [FsEntry.dir "a" [], FsEntry.file "f"])).2.length
          = [FsEntry.dir "a" [], FsEntry.file "f"].length) :=
  ⟨by decide, ls_lists_every_child _ (by decide)⟩

/-- C6: the output order of `Explore` is the traversal order.  The
directory output is the concatenation, in readdir order, of one block
per entry, each block being the entry's own joined path immediately
followed by its whole subtree's directory output (depth-first, finished
before the next sibling's block starts); the file output is this
level's files followed by the per-entry subtree file blocks in the same
order.  In particular every non-hidden subdirectory's path appears
before everything that comes out of its own subtree. -/
theorem explore_order_depth_first (root : String) (es : List FsEntry) :
    (Explore root (some es)).1 = catLists (es.map (entryDirsOut root))
    ∧ (Explore root (some es)).2 = (Ls (some es)).2 ++ catLists (es.map (entryFilesOut root))
    ∧ (∀ (pre post : List FsEntry) (name : String) (cs : List FsEntry),
        es = pre ++ FsEntry.dir name cs :: post → IsHidden name = false →
        ∃ l₁ l₂, (Explore root (some es)).1
          = l₁ ++ pathJoin root name :: ((Explore (pathJoin root name) (some cs)).1 ++ l₂)) := by
  refine ⟨?_, ?_, ?_⟩
  · rw [Explore_some, exploreDirLoop_eq_catLists]
  · rw [Explore_some, exploreDirLoop_eq_catLists]
    rfl
  · intro pre post name cs heq hn
    refine ⟨(exploreDirLoop root pre).1, (exploreDirLoop root post).1, ?_⟩
    rw [Explore_some, heq, exploreDirLoop_append, exploreDirLoop_cons]
    simp [entryDirsOut, hn, Explore_some]

/-- Witness for C6 on a root with one subdirectory holding one file. -/
theorem explore_order_depth_first_witness :
    ([FsEntry.dir "a" [FsEntry.file "f1"]]
        = ([] : List FsEntry) ++ FsEntry.dir "a" [FsEntry.file "f1"] :: [])
    ∧ IsHidden "a" = false
    ∧ ∃ l₁ l₂, (Explore "" (some [FsEntry.dir "a" [FsEntry.file "f1"]])).1
        = l₁ ++ pathJoin "" "a" :: ((Explore (pathJoin "" "a") (some [FsEntry.file "f1"])).1 ++ l₂) :=
  ⟨rfl, by decide,
   (explore_order_depth_first "" _).2.2 [] [] "a" [FsEntry.file "f1"] rfl (by decide)⟩

/-- C7: two `Explore` calls on the same root over the same unmodified
tree, with the OS free to return each directory level in a different
order on the second read (`Reorder`), yield pairwise permuted outputs
and hence identical membership as sets, for both directories and
files. -/
theorem explore_same_tree_same_membership (root : String) {es es' : List FsEntry}
    (h : Reorder es es') :
    ((Explore root (some es)).1).Perm ((Explore root (some es')).1)
    ∧ ((Explore root (some es)).2).Perm ((Explore root (some es')).2)
    ∧ (∀ x : String,
        (x ∈ (Explore root (some es)).1 ↔ x ∈ (Explore root (some es')).1)
        ∧ (x ∈ (Explore root (some es)).2 ↔ x ∈ (Explore root (some es')).2)) := by
  obtain ⟨p1, p2, p3, p4⟩ := reorder_outputs_perm h root
  have hd : ((Explore root (some es)).1).Perm ((Explore root (some es')).1) := by
    rw [Explore_some, Explore_some]
    exact p3
  have hf : ((Explore root (some es)).2).Perm ((Explore root (some es')).2) := by
    rw [Explore_some, Explore_some]
    exact p2.append p4
  exact ⟨hd, hf, fun x => ⟨hd.mem_iff, hf.mem_iff⟩⟩

/-- Witness for C7 on a two-file directory read in swapped order. -/
theorem explore_same_tree_same_membership_witness :
    Reorder [FsEntry.file "u", FsEntry.file "v"] [FsEntry.file "v", FsEntry.file "u"]
    ∧ ((Explore "" (some [FsEntry.file "u", FsEntry.file "v"])).2).Perm
        ((Explore "" (some [FsEntry.file "v", FsEntry.file "u"])).2) :=
  ⟨Reorder.swap _ _ _,
   (explore_same_tree_same_membership ""
      (Reorder.swap (FsEntry.file "u") (FsEntry.file "v") [])).2.1⟩

/-- C9: `Explore` terminates on every finite tree — it is a total
function of the tree, and its recursion depth is bounded by the tree
depth, with equality on trees without hidden entries; each recursive
call (on a non-hidden directory entry) runs at strictly smaller
recursion depth, so the traversal is well-founded on tree depth; and
there is no depth limit: the depth-`n` chain tree is traversed at
recursion depth exactly `n + 1` for every `n`. -/
theorem explore_depth_equals_tree_depth :
    (∀ c : Option (List FsEntry), exploreCallDepth c ≤ treeDepth c)
    ∧ (∀ es : List FsEntry, noHidden es = true →
        exploreCallDepth (some es) = treeDepth (some es))
    ∧ (∀ (es : List FsEntry) (n : String) (cs : List FsEntry),
        FsEntry.dir n cs ∈ es → IsHidden n = false →
        exploreCallDepth (some cs) < exploreCallDepth (some es))
    ∧ (∀ n : Nat, exploreCallDepth (some (chainTree n)) = n + 1
        ∧ treeDepth (some (chainTree n)) = n + 1) := by
  refine ⟨?_, ?_, ?_, ?_⟩
  · intro c
    cases c with
    | none => simp [exploreCallDepth, treeDepth]
    | some es =>
        have := callDepthList_le_treeDepthList es
        simp [exploreCallDepth, treeDepth]
        omega
  · intro es h
    simp [exploreCallDepth, treeDepth, noHidden_callDepth_eq es h]
  · intro es n cs hmem hn
    have := mem_dir_callDepth_lt es n cs hmem hn
    simp [exploreCallDepth]
    omega
  · intro n
    obtain ⟨h1, h2⟩ := chainTree_depth n
    simp [exploreCallDepth, treeDepth, h1, h2]
    omega

/-- Witness for C9: the recursive call on the single subdirectory of a
one-directory root runs at strictly smaller depth. -/
theorem explore_depth_equals_tree_depth_witness :
    FsEntry.dir "a" ([] : List FsEntry) ∈ [FsEntry.dir "a" ([] : List FsEntry)]
    ∧ IsHidden "a" = false
    ∧ exploreCallDepth (some ([] : List FsEntry))
        < exploreCallDepth (some [FsEntry.dir "a" ([] : List FsEntry)]) :=
  ⟨List.mem_cons_self _ _, by decide,
   explore_depth_equals_tree_depth.2.2.1 [FsEntry.dir "a" []] "a" []
     (List.mem_cons_self _ _) (by decide)⟩

end Fcmd
